import Mathlib

/-!
Verification of the gsaca-double-sort suffix array construction library
(repository jonas-ellert/gsaca-double-sort) against its specification.

The development shallowly embeds the relevant C++ sources:
* src/gsaca-double-sort/uint_types.hpp : the packed 40/48-bit integer type
  UIntPair, the sign-bit flag policies flag_type_bitset / flag_type_none;
* src/gsaca-double-sort/wrappers.hpp : the virtual-sentinel text view
  text_type::operator[] and the suffix array wrapper sa_type with its two
  side slots sa01;
* src/gsaca-double-sort/parallel-for-lce/gsaca-ds-par.hpp : the phase-0
  bucketing step sort_by_prefix_parallel (modelled here as
  sortByPrefixParallel) and the entry point gsaca_for_lce.

Machine integers are modelled as Nat with explicit reduction modulo 2 ^ w
exactly where the C++ code casts or wraps.  Parallel-for loops with
independent element-wise bodies are modelled as the corresponding maps /
comprehensions; the external ips4o parallel comparison sort (consumed by the
code only through its sort contract) is modelled by insertion sort, which is
fully determined here because the supplied comparator is a strict total
order (ties are broken by position).
-/

namespace GsacaLyndon

/-! ### uint_types.hpp : UIntPair

`UIntPair<High_>` stores a 32-bit low part `low_` and an `hb`-bit high part
`high_` (`hb = 8` for uint40_t, `hb = 16` for uint48_t).  We model both
fields as `Nat`; every operation reduces modulo `2 ^ 32` / `2 ^ hb` exactly
where the C++ code performs a cast to `Low` / `High`. -/

structure UIntPair (hb : Nat) where
  low : Nat
  high : Nat
deriving DecidableEq

/-- Field validity: what the C++ fixed-width members guarantee by typing. -/
def UIntPair.valid {hb : Nat} (x : UIntPair hb) : Prop :=
  x.low < 2 ^ 32 ∧ x.high < 2 ^ hb

/-- Constructor from `unsigned long long` (uint_types.hpp lines 145-150):
`low_ = a & low_max()`, `high_ = (a >> low_bits) & high_max()`. -/
def UIntPair.ofU64 (hb : Nat) (a : Nat) : UIntPair hb :=
  ⟨a &&& (2 ^ 32 - 1), (a >>> 32) &&& (2 ^ hb - 1)⟩

/-- The overflow assertion in that constructor:
`assert((a >> (low_bits + high_bits)) == 0)` (uint_types.hpp line 149). -/
def UIntPair.ctorAssertOk (hb : Nat) (a : Nat) : Prop :=
  a >>> (32 + hb) = 0

/-- Method `ull()` (uint_types.hpp lines 167-169): `((uint64_t) high_) << low_bits | (uint64_t) low_`. -/
def UIntPair.ull {hb : Nat} (x : UIntPair hb) : Nat :=
  (x.high <<< 32) ||| x.low

/-- Method `u64()` (uint_types.hpp lines 177-179): same expression as `ull()`. -/
def UIntPair.u64 {hb : Nat} (x : UIntPair hb) : Nat :=
  (x.high <<< 32) ||| x.low

/-- Function `UIntPair::min()` (uint_types.hpp lines 312-315). -/
def UIntPair.min (hb : Nat) : UIntPair hb := ⟨0, 0⟩

/-- Function `UIntPair::max()` (uint_types.hpp lines 318-321). -/
def UIntPair.max (hb : Nat) : UIntPair hb := ⟨2 ^ 32 - 1, 2 ^ hb - 1⟩

/-- Prefix `operator++` (uint_types.hpp lines 182-188): if `low_ == low_max()`
then `++high_, low_ = 0` else `++low_`; the increments act on the
fixed-width members, hence the reductions mod `2 ^ hb` / `2 ^ 32`. -/
def UIntPair.inc {hb : Nat} (x : UIntPair hb) : UIntPair hb :=
  if x.low = 2 ^ 32 - 1 then ⟨0, (x.high + 1) % 2 ^ hb⟩
  else ⟨(x.low + 1) % 2 ^ 32, x.high⟩

/-- Prefix `operator--` (uint_types.hpp lines 191-197): if `low_ == 0`
then `--high_, low_ = low_max()` else `--low_`; `--high_` on the
`hb`-bit member wraps, modelled as adding `2 ^ hb - 1` mod `2 ^ hb`. -/
def UIntPair.dec {hb : Nat} (x : UIntPair hb) : UIntPair hb :=
  if x.low = 0 then ⟨2 ^ 32 - 1, (x.high + (2 ^ hb - 1)) % 2 ^ hb⟩
  else ⟨x.low - 1, x.high⟩

/-- Operator `operator+` (uint_types.hpp lines 228-233):
`add = low_ + uint64_t(b.low_)`; result `((Low)(add & low_max()),
(High)(high_ + b.high_ + ((add >> low_bits) & high_max())))`. -/
def UIntPair.add {hb : Nat} (x y : UIntPair hb) : UIntPair hb :=
  let a := (x.low + y.low) % 2 ^ 64
  ⟨a &&& (2 ^ 32 - 1), (x.high + y.high + ((a >>> 32) &&& (2 ^ hb - 1))) % 2 ^ hb⟩

/-- Operator `operator-` (uint_types.hpp lines 244-249): `sub = low_ - uint64_t(b.low_)`
(64-bit wraparound, modelled through `Int.emod`); result
`((Low)(sub & low_max()), (High)(high_ - b.high_ + ((sub >> low_bits) & high_max())))`. -/
def UIntPair.sub {hb : Nat} (x y : UIntPair hb) : UIntPair hb :=
  let s : Nat := ((((x.low : Int) - (y.low : Int)) % ((2 : Int) ^ 64)).toNat)
  ⟨s &&& (2 ^ 32 - 1),
    ((((x.high : Int) - (y.high : Int) + (((s >>> 32) &&& (2 ^ hb - 1) : Nat) : Int)) % ((2 : Int) ^ hb)).toNat)⟩

/-- Operator `operator==` (uint_types.hpp lines 252-254). -/
def UIntPair.beq {hb : Nat} (x y : UIntPair hb) : Bool :=
  decide (x.low = y.low) && decide (x.high = y.high)

/-- Operator `operator!=` (uint_types.hpp lines 257-259). -/
def UIntPair.bne {hb : Nat} (x y : UIntPair hb) : Bool :=
  !decide (x.low = y.low) || !decide (x.high = y.high)

/-- Operator `operator<` (uint_types.hpp lines 262-264). -/
def UIntPair.blt {hb : Nat} (x y : UIntPair hb) : Bool :=
  decide (x.high < y.high) || (decide (x.high = y.high) && decide (x.low < y.low))

/-- Operator `operator<=` (uint_types.hpp lines 267-269). -/
def UIntPair.ble {hb : Nat} (x y : UIntPair hb) : Bool :=
  decide (x.high < y.high) || (decide (x.high = y.high) && decide (x.low ≤ y.low))

/-- Operator `operator>` (uint_types.hpp lines 272-274). -/
def UIntPair.bgt {hb : Nat} (x y : UIntPair hb) : Bool :=
  decide (y.high < x.high) || (decide (x.high = y.high) && decide (y.low < x.low))

/-- Operator `operator>=` (uint_types.hpp lines 277-279). -/
def UIntPair.bge {hb : Nat} (x y : UIntPair hb) : Bool :=
  decide (y.high < x.high) || (decide (x.high = y.high) && decide (y.low ≤ x.low))

/-! ### uint_types.hpp : flag_type_bitset

The sign-bit tagging policy.  The plain-integer overloads are parametrised
by the bit width `w` of the unsigned type `T` (`w = 8 * sizeof(T)`); the
UIntPair overloads act on the `hb`-bit high part. -/

namespace flag_type_bitset

/-- Policy `add_flag` for plain unsigned `T` (uint_types.hpp lines 328-333):
`t | (T(1) << (w - 1))`. -/
def add_flag (w t : Nat) : Nat := t ||| (1 <<< (w - 1))

/-- Policy `add_flag` for `UIntPair` (uint_types.hpp lines 335-341):
sets the top bit of the high part. -/
def add_flag_pair {hb : Nat} (x : UIntPair hb) : UIntPair hb :=
  ⟨x.low, x.high ||| (1 <<< (hb - 1))⟩

/-- Policy `conditional_add_flag` for plain unsigned `T` (uint_types.hpp lines
343-348): `t | (T(b) << (w - 1))`. -/
def conditional_add_flag (w : Nat) (b : Bool) (t : Nat) : Nat :=
  t ||| (b.toNat <<< (w - 1))

/-- Policy `conditional_add_flag` for `UIntPair` (uint_types.hpp lines 350-356). -/
def conditional_add_flag_pair {hb : Nat} (b : Bool) (x : UIntPair hb) : UIntPair hb :=
  ⟨x.low, x.high ||| (b.toNat <<< (hb - 1))⟩

/-- Policy `remove_flag` for plain unsigned `T` (uint_types.hpp lines 358-362):
`(t << 1) >> 1`.  The shifts are computed in the integral-promoted type of
`t`: for rank >= int types (`w >= 32`, i.e. uint32_t/uint64_t) this is `T`
itself, so the left shift wraps modulo `2 ^ w` and the promoted width is
`w`; for sub-int types (uint8_t/uint16_t, `w = 8, 16`, which also pass the
function's static_assert) the operands are promoted to `int` — modelled as
width 32, exact here because promoted values stay below `2 ^ 17` — so no
truncation occurs between the shifts and the expression is the identity.
The trailing reduction modulo `2 ^ w` is the conversion back to `T` at
`return` (a no-op in both cases). -/
def remove_flag (w t : Nat) : Nat := (((t <<< 1) % 2 ^ max 32 w) >>> 1) % 2 ^ w

/-- Policy `remove_flag` for `UIntPair` (uint_types.hpp lines 364-369):
`(t.high_ <<= 1) >>= 1` on the `hb`-bit high part. -/
def remove_flag_pair {hb : Nat} (x : UIntPair hb) : UIntPair hb :=
  ⟨x.low, ((x.high <<< 1) % 2 ^ hb) >>> 1⟩

/-- Policy `is_flagged` for plain unsigned `T` (uint_types.hpp lines 371-376):
`(signed_T) t < 0`, i.e. the top bit of the `w`-bit value. -/
def is_flagged (w t : Nat) : Bool := t.testBit (w - 1)

/-- Policy `is_flagged` for `UIntPair` (uint_types.hpp lines 378-382):
the top bit of the `hb`-bit high part. -/
def is_flagged_pair {hb : Nat} (x : UIntPair hb) : Bool := x.high.testBit (hb - 1)

end flag_type_bitset

/-! ### uint_types.hpp : flag_type_none (lines 385-405), the no-op policy. -/

namespace flag_type_none

def add_flag (t : Nat) : Nat := t

def conditional_add_flag (_b : Bool) (t : Nat) : Nat := t

def remove_flag (t : Nat) : Nat := t

def is_flagged (_t : Nat) : Bool := false

end flag_type_none

/-- Specification-side decoder for flag-tagged `w`-bit entries: the index
value an entry denotes, i.e. the entry with the reserved top bit stripped
(the `w`-bit wrap-and-shift, equal to reduction modulo `2 ^ (w - 1)`).
This is not a program function: it is used only to state which suffix a
tagged suffix-array entry stands for.  For widths of rank >= int
(`w >= 32`) it coincides with the program's
`flag_type_bitset.remove_flag`. -/
def untag (w t : Nat) : Nat := ((t <<< 1) % 2 ^ w) >>> 1

/-! ### wrappers.hpp -/

/-- Accessor `text_type::operator[]` (wrappers.hpp lines 25-28), where `n` is the
already adjusted length (text length + 2): requested index `i` yields
`text[i - 1] + 1` for `0 < i < n - 1` and `0` at the two conceptual
boundary positions. -/
def text_at (n : Nat) (text : List Nat) (i : Nat) : Nat :=
  if 0 < i ∧ i < n - 1 then text.getD (i - 1) 0 + 1 else 0

/-- Structure `sa_type` (wrappers.hpp lines 7-17): the caller's buffer `sa` plus the
two side slots `sa01`; logical index `i > 1` aliases `sa[i - 2]`, logical
indices `0` and `1` alias the side slots. -/
structure sa_type where
  sa01 : Nat × Nat
  sa : List Nat
deriving DecidableEq

/-- Accessor `sa_type::operator[]` read (wrappers.hpp lines 13-16). -/
def sa_type.get (s : sa_type) (i : Nat) : Nat :=
  if 1 < i then s.sa.getD (i - 2) 0
  else if i = 0 then s.sa01.1 else s.sa01.2

/-- Accessor `sa_type::operator[]` write (wrappers.hpp lines 13-16). -/
def sa_type.set (s : sa_type) (i v : Nat) : sa_type :=
  if 1 < i then ⟨s.sa01, s.sa.set (i - 2) v⟩
  else if i = 0 then ⟨(v, s.sa01.2), s.sa⟩ else ⟨(s.sa01.1, v), s.sa⟩

/-! ### gsaca-ds-par.hpp : phase 0 and the for-lce entry point -/

/-- Comparator of the phase-0 bucket sort (gsaca-ds-par.hpp lines 38-42):
order by first symbol through the sentinel view, ties broken by position. -/
def phase0_comp (n : Nat) (text : List Nat) (a b : Nat) : Bool :=
  decide (text_at n text a < text_at n text b) ||
    (decide (text_at n text a = text_at n text b) && decide (a < b))

/-- Function `sort_by_prefix_parallel` (gsaca-ds-par.hpp lines 17-71), parametrised
by the flag policy's `conditional_add_flag` (the template parameter `F`).
The two parallel-for loops have independent element-wise bodies and are
modelled as a direct construction / map over the touched logical range;
the external `ips4o::parallel::sort` over physical range `[0, n-2)` is
consumed only through its sort contract and is modelled by insertion sort
(the comparator is a strict total order, so the sorted permutation is
unique).  The group-stack return value is not modelled: no claim refers to
it.  Logical steps, in source order: `sa[0] = 0; sa[1] = n-1;`, the fill
`sa[i+1] = i` for `1 <= i < n-1`, the sort of physical `[0, n-2)`, the
flag-tagging loop over logical `0 <= i < n`, and finally
`sa[0] = n-1; sa[1] = 0;`. -/
def sortByPrefixParallel (condFlag : Bool → Nat → Nat) (n : Nat) (text : List Nat)
    (s0 : sa_type) : sa_type :=
  let s1 := (s0.set 0 0).set 1 (n - 1)
  let s2 : sa_type := ⟨s1.sa01, List.range' 1 (n - 2) ++ s1.sa.drop (n - 2)⟩
  let s3 : sa_type := ⟨s2.sa01,
    List.insertionSort (fun a b => phase0_comp n text b a = false) (s2.sa.take (n - 2)) ++
      s2.sa.drop (n - 2)⟩
  let f : Nat → Nat := fun idx =>
    if idx ≠ 0 then condFlag (decide (text_at n text (idx - 1) < text_at n text idx)) idx else idx
  let s4 : sa_type := ⟨(f s3.sa01.1, f s3.sa01.2), (s3.sa.take (n - 2)).map f ++ s3.sa.drop (n - 2)⟩
  (s4.set 0 (n - 1)).set 1 0

/-- Strict lexicographic comparison of symbol sequences. -/
def listLt : List Nat → List Nat → Bool
  | [], [] => false
  | [], _ :: _ => true
  | _ :: _, [] => false
  | a :: as, b :: bs => decide (a < b) || (decide (a = b) && listLt as bs)

/-- The sentinel-extended suffix of the text starting at position `p`: the
symbols seen through the virtual-sentinel view (each real symbol shifted up
by one, a terminating virtual sentinel `0` smaller than every real
symbol).  This is exactly the symbol sequence `text[p+1..n-1]` of the
adjusted text view of wrappers.hpp, for the interior position `p + 1`. -/
def extSuffix (t : List Nat) (p : Nat) : List Nat :=
  (t.drop p).map (fun c => c + 1) ++ [0]

/-- Strict lexicographic order on suffix start positions under the
sentinel-extended ordering. -/
def suffixLt (t : List Nat) (i j : Nat) : Bool :=
  listLt (extSuffix t i) (extSuffix t j)

/-- Complement order used for sorting: `i` may precede `j` unless the
suffix at `j` is strictly smaller. -/
def suffixLe (t : List Nat) (i j : Nat) : Bool := !(suffixLt t j i)

/-- Modelled from the spec: the bodies of `phase_1_by_sorting_parallel_for_lce`
(phase_1.hpp) and `phase_2_by_sorting_stable_parallel_for_lce` (phase_2.hpp)
invoked by `gsaca_for_lce_wrapped` are not part of the repository snapshot
(only this caller is).  Per spec sections 6 and 8, the net effect of the
complete pipeline behind the no-sentinel entry point `gsaca_for_lce`
(gsaca-ds-par.hpp lines 119-124) is that the caller's buffer holds the
permutation of `0..n-1` listing all suffix start positions of the original
text in ascending lexicographic order under the sentinel-extended
ordering. -/
def gsaca_for_lce (t : List Nat) : List Nat :=
  List.insertionSort (fun i j => suffixLe t i j = true) (List.range t.length)

end GsacaLyndon

namespace GsacaLyndon

/-! ### Sanity theorems for the basic wrappers and the packed type -/

/-- Splitting a modulus: reducing `E * A + r` (with `r < E`) modulo `E * M`
reduces the high part modulo `M` and keeps the low part. -/
theorem split_mod (E A r M : Nat) (hr : r < E) (hM : 0 < M) :
    (E * A + r) % (E * M) = E * (A % M) + r := by
  have hdm : A = M * (A / M) + A % M := (Nat.div_add_mod A M).symm
  have hlt : E * (A % M) + r < E * M := by
    have h1 : A % M + 1 ≤ M := Nat.mod_lt A hM
    calc E * (A % M) + r < E * (A % M) + E := Nat.add_lt_add_left hr _
      _ = E * (A % M + 1) := by ring
      _ ≤ E * M := Nat.mul_le_mul_left E h1
  have key : E * A + r = E * (A % M) + r + (E * M) * (A / M) := by
    conv_lhs => rw [hdm]
    ring
  rw [key, Nat.add_mul_mod_self_left, Nat.mod_eq_of_lt hlt]

/-- For in-range low parts, `ull()`'s shift-or is plain positional addition. -/
theorem UIntPair.ull_eq_add {hb : Nat} (x : UIntPair hb) (h : x.low < 2 ^ 32) :
    x.ull = 2 ^ 32 * x.high + x.low := by
  unfold UIntPair.ull
  rw [Nat.shiftLeft_eq, Nat.mul_comm, ← Nat.mul_add_lt_is_or h]

/-- Claim C4: for every adjusted length `n` and requested index `i`, the text
view returns `0` at the two conceptual boundary positions (`i = 0` or
`i = n - 1`) and the stored symbol at `i - 1` plus one at every interior
position `0 < i < n - 1`. -/
theorem c4_text_view_boundaries (n : Nat) (t : List Nat) (i : Nat) :
    ((i = 0 ∨ i = n - 1) → text_at n t i = 0) ∧
    (0 < i → i < n - 1 → text_at n t i = t.getD (i - 1) 0 + 1) := by
  constructor
  · intro h
    unfold text_at
    rw [if_neg]
    rcases h with rfl | rfl <;> omega
  · intro h1 h2
    unfold text_at
    rw [if_pos ⟨h1, h2⟩]

/-- Witness for C4 at concrete inputs: adjusted length 5 over stored text
`[10, 20, 30]`, boundary positions 0 and 4, interior position 2. -/
theorem c4_text_view_boundaries_witness :
    text_at 5 [10, 20, 30] 0 = 0 ∧ text_at 5 [10, 20, 30] 4 = 0 ∧
    text_at 5 [10, 20, 30] 2 = 21 :=
  ⟨(c4_text_view_boundaries 5 [10, 20, 30] 0).1 (Or.inl rfl),
   (c4_text_view_boundaries 5 [10, 20, 30] 4).1 (Or.inr rfl),
   (c4_text_view_boundaries 5 [10, 20, 30] 2).2 (by decide) (by decide)⟩

/-- Claim C6: every value representable in the packed width (32 + hb bits)
round-trips through the `unsigned long long` constructor and `ull()`/`u64()`,
the constructor's overflow assertion holds, and the full representable range
is delimited by `min()` (value 0) and `max()` (value `2 ^ (32 + hb) - 1`). -/
theorem c6_packed_roundtrip (hb a : Nat) (h : a < 2 ^ (32 + hb)) :
    (UIntPair.ofU64 hb a).ull = a ∧ (UIntPair.ofU64 hb a).u64 = a ∧
    UIntPair.ctorAssertOk hb a ∧
    (UIntPair.min hb).ull = 0 ∧ (UIntPair.max hb).ull = 2 ^ (32 + hb) - 1 := by
  have hpow : 2 ^ (32 + hb) = 2 ^ 32 * 2 ^ hb := Nat.pow_add 2 32 hb
  have hdiv : a / 2 ^ 32 < 2 ^ hb := by
    rw [Nat.div_lt_iff_lt_mul (Nat.pos_pow_of_pos 32 (by norm_num))]
    rw [hpow] at h
    omega
  have hull : (UIntPair.ofU64 hb a).ull = a := by
    unfold UIntPair.ofU64
    rw [UIntPair.ull_eq_add]
    · show 2 ^ 32 * ((a >>> 32) &&& (2 ^ hb - 1)) + (a &&& (2 ^ 32 - 1)) = a
      rw [Nat.and_pow_two_sub_one_eq_mod, Nat.and_pow_two_sub_one_eq_mod,
        Nat.shiftRight_eq_div_pow, Nat.mod_eq_of_lt hdiv, Nat.div_add_mod]
    · show (a &&& (2 ^ 32 - 1)) < 2 ^ 32
      rw [Nat.and_pow_two_sub_one_eq_mod]
      exact Nat.mod_lt a (by norm_num)
  refine ⟨hull, hull, ?_, ?_, ?_⟩
  · unfold UIntPair.ctorAssertOk
    rw [Nat.shiftRight_eq_div_pow]
    exact Nat.div_eq_of_lt h
  · simp [UIntPair.min, UIntPair.ull]
  · have hlow : (UIntPair.max hb).low < 2 ^ 32 := by
      show 2 ^ 32 - 1 < 2 ^ 32
      omega
    rw [UIntPair.ull_eq_add _ hlow]
    show 2 ^ 32 * (2 ^ hb - 1) + (2 ^ 32 - 1) = 2 ^ (32 + hb) - 1
    have h1 : 1 ≤ 2 ^ hb := Nat.one_le_two_pow
    have h2 : (1:Nat) ≤ 2 ^ 32 := Nat.one_le_two_pow
    have h3 : 2 ^ 32 * (2 ^ hb - 1) = 2 ^ 32 * 2 ^ hb - 2 ^ 32 := by
      rw [Nat.mul_sub_one]
    have h4 : 2 ^ 32 ≤ 2 ^ 32 * 2 ^ hb := Nat.le_mul_of_pos_right _ (by omega)
    rw [hpow, h3]
    omega

/-- Witness for C6 at the maximum 40-bit packed value. -/
theorem c6_packed_roundtrip_witness :
    2 ^ 40 - 1 < 2 ^ (32 + 8) ∧ (UIntPair.ofU64 8 (2 ^ 40 - 1)).ull = 2 ^ 40 - 1 :=
  ⟨by norm_num, (c6_packed_roundtrip 8 (2 ^ 40 - 1) (by norm_num)).1⟩

/-! ### Bit-level helper lemmas for the flag policy -/

/-- Bitwise or distributes over a positional split at the bit boundary `n`. -/
theorem or_pow_split (n a b r s : Nat) (hr : r < 2 ^ n) (hs : s < 2 ^ n) :
    (2 ^ n * a + r) ||| (2 ^ n * b + s) = 2 ^ n * (a ||| b) + (r ||| s) := by
  have hrs : (r ||| s) < 2 ^ n := Nat.or_lt_two_pow hr hs
  apply Nat.eq_of_testBit_eq
  intro j
  rw [Nat.testBit_or, Nat.testBit_mul_pow_two_add _ hr, Nat.testBit_mul_pow_two_add _ hs,
    Nat.testBit_mul_pow_two_add _ hrs]
  by_cases hj : j < n
  · simp [hj, Nat.testBit_or]
  · simp [hj, Nat.testBit_or]

/-- Lemma: the `(t << 1) >> 1` idiom in `w`-bit arithmetic clears the top bit,
i.e. reduces modulo `2 ^ (w - 1)`. -/
theorem untag_eq_mod (w t : Nat) (hw : 1 ≤ w) :
    untag w t = t % 2 ^ (w - 1) := by
  unfold untag
  have h2 : 2 ^ w = 2 ^ (w - 1) * 2 := by
    rw [← Nat.pow_succ]
    congr 1
    omega
  rw [Nat.shiftLeft_eq, Nat.shiftRight_eq_div_pow]
  simp only [pow_one]
  rw [h2, Nat.mul_mod_mul_right, Nat.mul_div_cancel _ (by norm_num)]

/-- The sign-bit test on a positionally split `w`-bit value reads the parity
of the part above the boundary. -/
theorem is_flagged_eq (w q r : Nat) (hr : r < 2 ^ (w - 1)) :
    flag_type_bitset.is_flagged w (2 ^ (w - 1) * q + r) = q.testBit 0 := by
  unfold flag_type_bitset.is_flagged
  rw [Nat.testBit_mul_pow_two_add _ hr]
  simp

/-- Lemma: `add_flag` on a positionally split in-range value forces the top bit. -/
theorem add_flag_eq (w q r : Nat) (hr : r < 2 ^ (w - 1)) (hq : q < 2) :
    flag_type_bitset.add_flag w (2 ^ (w - 1) * q + r) = 2 ^ (w - 1) * 1 + r := by
  unfold flag_type_bitset.add_flag
  have h1 : (1 : Nat) <<< (w - 1) = 2 ^ (w - 1) * 1 + 0 := by
    rw [Nat.shiftLeft_eq]
    ring
  rw [h1, or_pow_split _ _ _ _ _ hr (Nat.pos_pow_of_pos _ (by norm_num))]
  have hq1 : q ||| 1 = 1 := by
    rcases (by omega : q = 0 ∨ q = 1) with rfl | rfl <;> rfl
  rw [hq1, Nat.or_zero]

/-- Lemma: `conditional_add_flag` on an untagged in-range value: the result is the
value with the top bit set iff the condition holds; the tag can be tested
with `is_flagged` and the denoted index recovered with `untag`. -/
theorem conditional_add_flag_spec (w : Nat) (b : Bool) (t : Nat) (hw : 1 ≤ w)
    (ht : t < 2 ^ (w - 1)) :
    flag_type_bitset.conditional_add_flag w b t = 2 ^ (w - 1) * b.toNat + t ∧
    flag_type_bitset.is_flagged w (flag_type_bitset.conditional_add_flag w b t) = b ∧
    untag w (flag_type_bitset.conditional_add_flag w b t) = t := by
  have heq : flag_type_bitset.conditional_add_flag w b t = 2 ^ (w - 1) * b.toNat + t := by
    unfold flag_type_bitset.conditional_add_flag
    have h1 : b.toNat <<< (w - 1) = 2 ^ (w - 1) * b.toNat + 0 := by
      rw [Nat.shiftLeft_eq]
      ring
    have h0 : t = 2 ^ (w - 1) * 0 + t := by ring
    conv_lhs => rw [h0, h1]
    rw [or_pow_split _ _ _ _ _ ht (Nat.pos_pow_of_pos _ (by norm_num))]
    simp [Nat.zero_or]
  refine ⟨heq, ?_, ?_⟩
  · rw [heq, is_flagged_eq _ _ _ ht]
    cases b <;> rfl
  · rw [heq, untag_eq_mod _ _ hw, Nat.mul_add_mod, Nat.mod_eq_of_lt ht]

/-- Round-trip of the `w`-bit wrap-and-shift decoder `untag` against
`add_flag`/`is_flagged`, for any width and either flag state. -/
theorem untag_roundtrip_core : ∀ w t : Nat, 1 ≤ w → t < 2 ^ w →
    untag w (flag_type_bitset.add_flag w t) = untag w t ∧
    (flag_type_bitset.is_flagged w t = false →
      untag w (flag_type_bitset.add_flag w t) = t) ∧
    flag_type_bitset.is_flagged w (flag_type_bitset.add_flag w t) = true ∧
    flag_type_bitset.is_flagged w (untag w t) = false := by
  intro w t hw ht
  have hpos : 0 < 2 ^ (w - 1) := Nat.pos_pow_of_pos _ (by norm_num)
  have hsplit : t = 2 ^ (w - 1) * (t / 2 ^ (w - 1)) + t % 2 ^ (w - 1) :=
    (Nat.div_add_mod t (2 ^ (w - 1))).symm
  have hr : t % 2 ^ (w - 1) < 2 ^ (w - 1) := Nat.mod_lt t hpos
  have hq : t / 2 ^ (w - 1) < 2 := by
    rw [Nat.div_lt_iff_lt_mul hpos]
    have h2 : 2 ^ w = 2 ^ (w - 1) * 2 := by
      rw [← Nat.pow_succ]
      congr 1
      omega
    rw [Nat.mul_comm, ← h2]
    exact ht
  have hadd : flag_type_bitset.add_flag w t = 2 ^ (w - 1) * 1 + t % 2 ^ (w - 1) := by
    conv_lhs => rw [hsplit]
    exact add_flag_eq w _ _ hr hq
  refine ⟨?_, ?_, ?_, ?_⟩
  · rw [hadd, untag_eq_mod _ _ hw, untag_eq_mod _ _ hw, Nat.mul_add_mod]
    exact Nat.mod_mod_of_dvd t (dvd_refl _)
  · intro hf
    have hq0 : t / 2 ^ (w - 1) = 0 := by
      have hise := is_flagged_eq w (t / 2 ^ (w - 1)) (t % 2 ^ (w - 1)) hr
      rw [← hsplit] at hise
      rw [hise] at hf
      rcases Nat.le_one_iff_eq_zero_or_eq_one.mp (Nat.lt_succ_iff.mp hq) with h0 | h1
      · exact h0
      · rw [h1] at hf
        simp at hf
    have htr : t = t % 2 ^ (w - 1) := by
      conv_lhs => rw [hsplit]
      rw [hq0]
      ring
    rw [hadd, untag_eq_mod _ _ hw, Nat.mul_add_mod, Nat.mod_mod_of_dvd t (dvd_refl _)]
    exact htr.symm
  · rw [hadd, is_flagged_eq _ _ _ hr]
    rfl
  · rw [untag_eq_mod _ _ hw]
    unfold flag_type_bitset.is_flagged
    exact Nat.testBit_lt_two_pow (Nat.mod_lt t hpos)

/-- For widths of rank >= int (no integral promotion), the program's
`remove_flag` is exactly the wrap-and-shift decoder. -/
theorem remove_flag_eq_untag (w t : Nat) (hw : 32 ≤ w) :
    flag_type_bitset.remove_flag w t = untag w t := by
  unfold flag_type_bitset.remove_flag untag
  rw [max_eq_right hw]
  apply Nat.mod_eq_of_lt
  rw [Nat.shiftRight_eq_div_pow]
  exact Nat.lt_of_le_of_lt (Nat.div_le_self _ _)
    (Nat.mod_lt _ (Nat.pos_pow_of_pos _ (by norm_num)))

/-- Claim C9 counterexample: at width 8 — uint8_t passes the policy's
static_assert and is thus a supported index type — integral promotion makes
`(t << 1) >> 1` compute in `int`, so `remove_flag` does not clear the flag:
tagging the untagged value 5 and untagging yields 133, still tagged. -/
theorem c9_promotion_counterexample :
    flag_type_bitset.is_flagged 8 5 = false ∧
    flag_type_bitset.add_flag 8 5 = 133 ∧
    flag_type_bitset.remove_flag 8 (flag_type_bitset.add_flag 8 5) = 133 ∧
    flag_type_bitset.is_flagged 8
      (flag_type_bitset.remove_flag 8 (flag_type_bitset.add_flag 8 5)) = true := by decide

/-- Claim C9 (amended): the flag round-trip holds for plain unsigned index
types of rank >= int (`w >= 32`, e.g. uint32_t/uint64_t) and for packed
`UIntPair` values at every high width, in either flag state; for sub-int
widths (uint8_t/uint16_t) integral promotion makes the plain `remove_flag`
the identity on representable values, so a tag, once set, is not cleared. -/
theorem c9_amended_flag_roundtrip :
    (∀ w t : Nat, 32 ≤ w → t < 2 ^ w →
      flag_type_bitset.remove_flag w (flag_type_bitset.add_flag w t) =
        flag_type_bitset.remove_flag w t ∧
      (flag_type_bitset.is_flagged w t = false →
        flag_type_bitset.remove_flag w (flag_type_bitset.add_flag w t) = t) ∧
      flag_type_bitset.is_flagged w (flag_type_bitset.add_flag w t) = true ∧
      flag_type_bitset.is_flagged w (flag_type_bitset.remove_flag w t) = false) ∧
    (∀ w t : Nat, 1 ≤ w → w < 32 → t < 2 ^ w →
      flag_type_bitset.remove_flag w t = t) ∧
    (∀ (hb : Nat) (x : UIntPair hb), 1 ≤ hb → x.high < 2 ^ hb →
      flag_type_bitset.remove_flag_pair (flag_type_bitset.add_flag_pair x) =
        flag_type_bitset.remove_flag_pair x ∧
      (flag_type_bitset.is_flagged_pair x = false →
        flag_type_bitset.remove_flag_pair (flag_type_bitset.add_flag_pair x) = x) ∧
      flag_type_bitset.is_flagged_pair (flag_type_bitset.add_flag_pair x) = true ∧
      flag_type_bitset.is_flagged_pair (flag_type_bitset.remove_flag_pair x) = false) := by
  refine ⟨?_, ?_, ?_⟩
  · intro w t hw32 ht
    have hw : 1 ≤ w := by omega
    have hrw : ∀ u, flag_type_bitset.remove_flag w u = untag w u :=
      fun u => remove_flag_eq_untag w u hw32
    simp only [hrw]
    exact untag_roundtrip_core w t hw ht
  · intro w t h1 h2 h3
    unfold flag_type_bitset.remove_flag
    rw [max_eq_left (by omega : w ≤ 32)]
    rw [Nat.shiftLeft_eq, Nat.shiftRight_eq_div_pow]
    simp only [pow_one]
    have hle : 2 ^ w ≤ 2 ^ 31 := Nat.pow_le_pow_right (by norm_num) (by omega)
    rw [Nat.mod_eq_of_lt (by omega : t * 2 < 2 ^ 32),
      Nat.mul_div_cancel _ (by norm_num : (0:Nat) < 2), Nat.mod_eq_of_lt h3]
  · intro hb x h1 h2
    have h := untag_roundtrip_core hb x.high h1 h2
    unfold flag_type_bitset.remove_flag_pair flag_type_bitset.add_flag_pair
      flag_type_bitset.is_flagged_pair
    unfold untag flag_type_bitset.add_flag flag_type_bitset.is_flagged at h
    refine ⟨by rw [h.1], fun hf => ?_, by rw [h.2.2.1], by rw [h.2.2.2]⟩
    have := h.2.1 hf
    rw [this]

/-- Witness for the amended C9: a 32-bit index value, the sub-int identity
at width 8 on a tagged value, and a packed uint40 value. -/
theorem c9_amended_flag_roundtrip_witness :
    flag_type_bitset.remove_flag 32 (flag_type_bitset.add_flag 32 5) = 5 ∧
    flag_type_bitset.remove_flag 8 133 = 133 ∧
    flag_type_bitset.is_flagged_pair (flag_type_bitset.add_flag_pair (⟨7, 3⟩ : UIntPair 8)) = true :=
  ⟨(c9_amended_flag_roundtrip.1 32 5 (by norm_num) (by norm_num)).2.1 (by decide),
   c9_amended_flag_roundtrip.2.1 8 133 (by norm_num) (by norm_num) (by norm_num),
   (c9_amended_flag_roundtrip.2.2 8 ⟨7, 3⟩ (by norm_num) (by norm_num)).2.2.1⟩

/-- Claim C10: the branch-free `conditional_add_flag(b, t)` equals
`add_flag(t)` when `b` is true and leaves `t` unchanged when `b` is false,
for untagged representable values of both supported index shapes. -/
theorem c10_conditional_add_flag :
    (∀ (w : Nat) (b : Bool) (t : Nat), 1 ≤ w → t < 2 ^ w →
      flag_type_bitset.is_flagged w t = false →
      flag_type_bitset.conditional_add_flag w b t =
        if b then flag_type_bitset.add_flag w t else t) ∧
    (∀ (hb : Nat) (b : Bool) (x : UIntPair hb), 1 ≤ hb → x.high < 2 ^ hb →
      flag_type_bitset.is_flagged_pair x = false →
      flag_type_bitset.conditional_add_flag_pair b x =
        if b then flag_type_bitset.add_flag_pair x else x) := by
  constructor
  · intro w b t _ _ _
    cases b
    · simp [flag_type_bitset.conditional_add_flag, Nat.zero_shiftLeft, Nat.or_zero]
    · simp [flag_type_bitset.conditional_add_flag, flag_type_bitset.add_flag]
  · intro hb b x _ _ _
    cases b
    · simp [flag_type_bitset.conditional_add_flag_pair, Nat.zero_shiftLeft, Nat.or_zero]
    · simp [flag_type_bitset.conditional_add_flag_pair, flag_type_bitset.add_flag_pair]

/-! ### Positional (high, low) decomposition vs 64-bit comparison helpers -/

/-- Strict comparison of positionally split values is lexicographic. -/
theorem lex_lt_iff (E h1 l1 h2 l2 : Nat) (hl1 : l1 < E) (hl2 : l2 < E) :
    E * h1 + l1 < E * h2 + l2 ↔ (h1 < h2 ∨ (h1 = h2 ∧ l1 < l2)) := by
  constructor
  · intro h
    by_cases hh : h1 < h2
    · exact Or.inl hh
    · right
      have hge : h2 ≤ h1 := Nat.le_of_not_lt hh
      have heq : h1 = h2 := by
        by_contra hne
        have hlt : h2 + 1 ≤ h1 := Nat.lt_of_le_of_ne hge (Ne.symm hne)
        have hge2 : E * (h2 + 1) ≤ E * h1 := Nat.mul_le_mul_left E hlt
        have hx : E * (h2 + 1) = E * h2 + E := by ring
        omega
      subst heq
      omega
  · intro h
    rcases h with hh | ⟨heq, hl⟩
    · have h1' : E * (h1 + 1) ≤ E * h2 := Nat.mul_le_mul_left E hh
      have hx : E * (h1 + 1) = E * h1 + E := by ring
      omega
    · subst heq
      omega

/-- Non-strict comparison of positionally split values is lexicographic. -/
theorem lex_le_iff (E h1 l1 h2 l2 : Nat) (hl1 : l1 < E) (hl2 : l2 < E) :
    E * h1 + l1 ≤ E * h2 + l2 ↔ (h1 < h2 ∨ (h1 = h2 ∧ l1 ≤ l2)) := by
  constructor
  · intro h
    by_cases hh : h1 < h2
    · exact Or.inl hh
    · right
      have hge : h2 ≤ h1 := Nat.le_of_not_lt hh
      have heq : h1 = h2 := by
        by_contra hne
        have hlt : h2 + 1 ≤ h1 := Nat.lt_of_le_of_ne hge (Ne.symm hne)
        have hge2 : E * (h2 + 1) ≤ E * h1 := Nat.mul_le_mul_left E hlt
        have hx : E * (h2 + 1) = E * h2 + E := by ring
        omega
      subst heq
      omega
  · intro h
    rcases h with hh | ⟨heq, hl⟩
    · have h1' : E * (h1 + 1) ≤ E * h2 := Nat.mul_le_mul_left E hh
      have hx : E * (h1 + 1) = E * h1 + E := by ring
      omega
    · subst heq
      omega

/-- Equality of positionally split values is componentwise. -/
theorem lex_eq_iff (E h1 l1 h2 l2 : Nat) (hl1 : l1 < E) (hl2 : l2 < E) :
    E * h1 + l1 = E * h2 + l2 ↔ (h1 = h2 ∧ l1 = l2) := by
  rw [Nat.le_antisymm_iff, lex_le_iff E h1 l1 h2 l2 hl1 hl2,
    lex_le_iff E h2 l2 h1 l1 hl2 hl1]
  omega

/-- A field-valid `UIntPair` widens below the packed bound. -/
theorem UIntPair.ull_lt {hb : Nat} (x : UIntPair hb) (h : x.valid) :
    x.ull < 2 ^ (32 + hb) := by
  rw [UIntPair.ull_eq_add _ h.1, Nat.pow_add]
  calc 2 ^ 32 * x.high + x.low < 2 ^ 32 * x.high + 2 ^ 32 := Nat.add_lt_add_left h.1 _
    _ = 2 ^ 32 * (x.high + 1) := by ring
    _ ≤ 2 ^ 32 * 2 ^ hb := Nat.mul_le_mul_left _ h.2

/-- Claim C8: the part-wise increment, decrement and comparison operators of
`UIntPair` agree with the widen-to-64-bit reference semantics: `++`/`--`
produce the packed value whose widened value is the predecessor/successor
narrowed modulo `2 ^ (32 + hb)` (subtracting one is represented additively
as adding `2 ^ (32 + hb) - 1` before narrowing), and each comparison
operator returns exactly the comparison of the two widened values. -/
theorem c8_partwise_matches_widened (hb : Nat) (x y : UIntPair hb)
    (hx : x.valid) (hy : y.valid) :
    (x.inc.ull = (x.ull + 1) % 2 ^ (32 + hb) ∧
     x.dec.ull = (x.ull + (2 ^ (32 + hb) - 1)) % 2 ^ (32 + hb)) ∧
    (x.beq y = decide (x.ull = y.ull) ∧
     x.bne y = decide (¬x.ull = y.ull) ∧
     x.blt y = decide (x.ull < y.ull) ∧
     x.ble y = decide (x.ull ≤ y.ull) ∧
     x.bgt y = decide (y.ull < x.ull) ∧
     x.bge y = decide (y.ull ≤ x.ull)) := by
  obtain ⟨hxl, hxh⟩ := hx
  obtain ⟨hyl, hyh⟩ := hy
  have hxu : x.ull = 2 ^ 32 * x.high + x.low := UIntPair.ull_eq_add _ hxl
  have hyu : y.ull = 2 ^ 32 * y.high + y.low := UIntPair.ull_eq_add _ hyl
  have hpow : 2 ^ (32 + hb) = 2 ^ 32 * 2 ^ hb := Nat.pow_add 2 32 hb
  have hP : (0:Nat) < 2 ^ 32 := Nat.pos_pow_of_pos _ (by norm_num)
  have hM : (0:Nat) < 2 ^ hb := Nat.pos_pow_of_pos _ (by norm_num)
  have hB : 2 ^ 32 ≤ 2 ^ 32 * 2 ^ hb := Nat.le_mul_of_pos_right _ hM
  have hxlt : 2 ^ 32 * x.high + x.low < 2 ^ 32 * 2 ^ hb := by
    rw [← hxu, ← hpow]
    exact UIntPair.ull_lt x ⟨hxl, hxh⟩
  refine ⟨⟨?_, ?_⟩, ?_, ?_, ?_, ?_, ?_, ?_⟩
  · -- increment
    unfold UIntPair.inc
    by_cases hlow : x.low = 2 ^ 32 - 1
    · rw [if_pos hlow, hxu, hlow]
      have key : 2 ^ 32 * x.high + (2 ^ 32 - 1) + 1 = 2 ^ 32 * (x.high + 1) + 0 := by
        have hx2 : 2 ^ 32 * (x.high + 1) = 2 ^ 32 * x.high + 2 ^ 32 := by ring
        omega
      rw [key, hpow, split_mod _ _ _ _ hP hM, UIntPair.ull_eq_add _ hP]
    · rw [if_neg hlow]
      have hlow2 : x.low + 1 < 2 ^ 32 := by omega
      rw [UIntPair.ull_eq_add _ (by simpa using Nat.mod_lt (x.low + 1) hP), hxu]
      show 2 ^ 32 * x.high + (x.low + 1) % 2 ^ 32 = (2 ^ 32 * x.high + x.low + 1) % 2 ^ (32 + hb)
      rw [Nat.mod_eq_of_lt hlow2, hpow, Nat.mod_eq_of_lt (by omega)]
      omega
  · -- decrement
    unfold UIntPair.dec
    by_cases hlow : x.low = 0
    · rw [if_pos hlow, hxu, hlow]
      have key : 2 ^ 32 * x.high + 0 + (2 ^ 32 * 2 ^ hb - 1) =
          2 ^ 32 * (x.high + (2 ^ hb - 1)) + (2 ^ 32 - 1) := by
        have hx2 : 2 ^ 32 * (x.high + (2 ^ hb - 1)) =
            2 ^ 32 * x.high + 2 ^ 32 * (2 ^ hb - 1) := by ring
        have hx3 : 2 ^ 32 * (2 ^ hb - 1) = 2 ^ 32 * 2 ^ hb - 2 ^ 32 := by
          rw [Nat.mul_sub_one]
        omega
      rw [hpow, key, split_mod _ _ _ _ (by omega : 2 ^ 32 - 1 < 2 ^ 32) hM,
        UIntPair.ull_eq_add _ (by omega : (2:Nat) ^ 32 - 1 < 2 ^ 32)]
    · rw [if_neg hlow]
      rw [UIntPair.ull_eq_add _ (by omega : x.low - 1 < 2 ^ 32), hxu, hpow]
      have key : 2 ^ 32 * x.high + x.low + (2 ^ 32 * 2 ^ hb - 1) =
          (2 ^ 32 * x.high + (x.low - 1)) + 2 ^ 32 * 2 ^ hb := by omega
      rw [key, Nat.add_mod_right, Nat.mod_eq_of_lt (by omega)]
  · -- operator==
    unfold UIntPair.beq
    rw [Bool.eq_iff_iff]
    simp only [Bool.and_eq_true, decide_eq_true_eq]
    rw [hxu, hyu, lex_eq_iff _ _ _ _ _ hxl hyl]
    omega
  · -- operator!=
    unfold UIntPair.bne
    rw [Bool.eq_iff_iff]
    simp only [Bool.or_eq_true, Bool.not_eq_true', decide_eq_false_iff_not,
      decide_eq_true_eq]
    rw [hxu, hyu, lex_eq_iff _ _ _ _ _ hxl hyl]
    omega
  · -- operator<
    unfold UIntPair.blt
    rw [Bool.eq_iff_iff]
    simp only [Bool.or_eq_true, Bool.and_eq_true, decide_eq_true_eq]
    rw [hxu, hyu, lex_lt_iff _ _ _ _ _ hxl hyl]
  · -- operator<=
    unfold UIntPair.ble
    rw [Bool.eq_iff_iff]
    simp only [Bool.or_eq_true, Bool.and_eq_true, decide_eq_true_eq]
    rw [hxu, hyu, lex_le_iff _ _ _ _ _ hxl hyl]
  · -- operator>
    unfold UIntPair.bgt
    rw [Bool.eq_iff_iff]
    simp only [Bool.or_eq_true, Bool.and_eq_true, decide_eq_true_eq]
    rw [hxu, hyu, lex_lt_iff _ _ _ _ _ hyl hxl]
    omega
  · -- operator>=
    unfold UIntPair.bge
    rw [Bool.eq_iff_iff]
    simp only [Bool.or_eq_true, Bool.and_eq_true, decide_eq_true_eq]
    rw [hxu, hyu, lex_le_iff _ _ _ _ _ hyl hxl]
    omega

/-- Witness for C8: concrete uint40 values. -/
theorem c8_partwise_matches_widened_witness :
    (⟨5, 2⟩ : UIntPair 8).inc.ull = ((⟨5, 2⟩ : UIntPair 8).ull + 1) % 2 ^ (32 + 8) ∧
    (⟨5, 2⟩ : UIntPair 8).blt ⟨7, 1⟩ = decide ((⟨5, 2⟩ : UIntPair 8).ull < (⟨7, 1⟩ : UIntPair 8).ull) :=
  ⟨(c8_partwise_matches_widened 8 ⟨5, 2⟩ ⟨7, 1⟩ (by constructor <;> norm_num)
      (by constructor <;> norm_num)).1.1,
   (c8_partwise_matches_widened 8 ⟨5, 2⟩ ⟨7, 1⟩ (by constructor <;> norm_num)
      (by constructor <;> norm_num)).2.2.2.1⟩

/-- Integer version of `split_mod`, for the subtraction operator. -/
theorem split_emod (E : Nat) (A : Int) (r : Nat) (M : Nat) (hr : r < E) (hM : 0 < M) :
    ((E : Int) * A + r) % ((E : Int) * M) = (E : Int) * (A % M) + r := by
  have hMpos : (0 : Int) < M := by exact_mod_cast hM
  have hM0 : ((M : Int)) ≠ 0 := hMpos.ne'
  have hEpos : (0 : Int) < E := by
    exact_mod_cast Nat.lt_of_le_of_lt (Nat.zero_le r) hr
  have h1 : (0 : Int) ≤ A % M := Int.emod_nonneg A hM0
  have h2 : A % M < M := Int.emod_lt_of_pos A hMpos
  have hdm : A = (M : Int) * (A / M) + A % M := (Int.ediv_add_emod A M).symm
  have key : (E : Int) * A + r = (E : Int) * (A % M) + r + ((E : Int) * M) * (A / M) := by
    conv_lhs => rw [hdm]
    ring
  rw [key, Int.add_mul_emod_self_left]
  apply Int.emod_eq_of_lt
  · have hnn : (0 : Int) ≤ (E : Int) * (A % M) := mul_nonneg (le_of_lt hEpos) h1
    omega
  · have h3 : A % M + 1 ≤ (M : Int) := h2
    have h4 : (E : Int) * (A % M + 1) ≤ (E : Int) * M :=
      mul_le_mul_of_nonneg_left h3 (le_of_lt hEpos)
    have h5 : (E : Int) * (A % M + 1) = (E : Int) * (A % M) + E := by ring
    omega

/-- Helper `split_emod` specialised to powers of two. -/
theorem split_emod_pow (n m : Nat) (A : Int) (r : Nat) (hr : r < 2 ^ n) :
    ((2 : Int) ^ n * A + r) % ((2 : Int) ^ (n + m)) = (2 : Int) ^ n * (A % (2 : Int) ^ m) + r := by
  have h := split_emod (2 ^ n) A r (2 ^ m) hr (Nat.pos_pow_of_pos _ (by norm_num))
  push_cast at h
  rw [pow_add]
  exact h

/-- Claim C7 counterexample: adding one to the maximum packed uint40 value
silently wraps to the mathematical sum reduced modulo the packed width
(the result is 0), instead of being rejected: `operator+` contains no
overflow check. -/
theorem c7_overflow_counterexample :
    2 ^ 40 ≤ (UIntPair.max 8).ull + (UIntPair.ofU64 8 1).ull ∧
    (UIntPair.add (UIntPair.max 8) (UIntPair.ofU64 8 1)).ull =
      ((UIntPair.max 8).ull + (UIntPair.ofU64 8 1).ull) % 2 ^ 40 ∧
    (UIntPair.add (UIntPair.max 8) (UIntPair.ofU64 8 1)).ull = 0 := by decide

/-- Claim C7 (amended): overflow in the packed `operator+`/`operator-`
silently wraps the mathematical result modulo the packed width `2 ^ (32 + hb)`;
only the construction of a `UIntPair` from a 64-bit value whose magnitude
exceeds the packed width violates the (assertion-checked) constructor
contract. -/
theorem c7_amended_silent_wrap (hb : Nat) (x y : UIntPair hb) (h1 : 1 ≤ hb) (h32 : hb ≤ 32)
    (hx : x.valid) (hy : y.valid) :
    (x.add y).ull = (x.ull + y.ull) % 2 ^ (32 + hb) ∧
    (x.sub y).ull = (((x.ull : Int) - (y.ull : Int)) % ((2 : Int) ^ (32 + hb))).toNat ∧
    (∀ a : Nat, 2 ^ (32 + hb) ≤ a → ¬ UIntPair.ctorAssertOk hb a) := by
  obtain ⟨hxl, hxh⟩ := hx
  obtain ⟨hyl, hyh⟩ := hy
  have hxu : x.ull = 2 ^ 32 * x.high + x.low := UIntPair.ull_eq_add _ hxl
  have hyu : y.ull = 2 ^ 32 * y.high + y.low := UIntPair.ull_eq_add _ hyl
  have hpow : 2 ^ (32 + hb) = 2 ^ 32 * 2 ^ hb := Nat.pow_add 2 32 hb
  have hP : (0 : Nat) < 2 ^ 32 := Nat.pos_pow_of_pos _ (by norm_num)
  have hM : (0 : Nat) < 2 ^ hb := Nat.pos_pow_of_pos _ (by norm_num)
  have hhb2 : (2 : Nat) ≤ 2 ^ hb := by
    calc (2 : Nat) = 2 ^ 1 := rfl
      _ ≤ 2 ^ hb := Nat.pow_le_pow_right (by norm_num) h1
  refine ⟨?_, ?_, ?_⟩
  · -- operator+ wraps modulo the packed width
    have ha : (x.low + y.low) % 2 ^ 64 = x.low + y.low := Nat.mod_eq_of_lt (by omega)
    have hc2 : (x.low + y.low) / 2 ^ 32 < 2 ^ hb := by
      have hc : (x.low + y.low) / 2 ^ 32 < 2 := by omega
      omega
    simp only [UIntPair.add]
    rw [ha, Nat.and_pow_two_sub_one_eq_mod, Nat.shiftRight_eq_div_pow,
      Nat.and_pow_two_sub_one_eq_mod, Nat.mod_eq_of_lt hc2,
      UIntPair.ull_eq_add _ (Nat.mod_lt _ hP)]
    rw [hxu, hyu, hpow]
    have key : 2 ^ 32 * x.high + x.low + (2 ^ 32 * y.high + y.low) =
        2 ^ 32 * (x.high + y.high + (x.low + y.low) / 2 ^ 32) + (x.low + y.low) % 2 ^ 32 := by
      have hdm := Nat.div_add_mod (x.low + y.low) (2 ^ 32)
      have e1 : 2 ^ 32 * (x.high + y.high + (x.low + y.low) / 2 ^ 32) =
          2 ^ 32 * x.high + 2 ^ 32 * y.high + 2 ^ 32 * ((x.low + y.low) / 2 ^ 32) := by ring
      omega
    rw [key, split_mod _ _ _ _ (Nat.mod_lt _ hP) hM]
  · -- operator- wraps modulo the packed width
    by_cases hlc : y.low ≤ x.low
    · have hs0 : ((x.low : Int) - y.low) % ((2 : Int) ^ 64) = ((x.low - y.low : Nat) : Int) := by
        have he : ((x.low : Int) - y.low) = ((x.low - y.low : Nat) : Int) := by omega
        rw [he]
        apply Int.emod_eq_of_lt (Int.natCast_nonneg _)
        exact_mod_cast (by omega : (x.low - y.low : Nat) < 2 ^ 64)
      simp only [UIntPair.sub]
      rw [hs0, Int.toNat_natCast]
      have hsr : (x.low - y.low) >>> 32 = 0 := by
        rw [Nat.shiftRight_eq_div_pow]
        omega
      rw [hsr, Nat.zero_and, Nat.cast_zero, add_zero,
        Nat.and_pow_two_sub_one_eq_mod, Nat.mod_eq_of_lt (by omega : x.low - y.low < 2 ^ 32),
        UIntPair.ull_eq_add _ (by omega : x.low - y.low < 2 ^ 32)]
      rw [hxu, hyu]
      have hint : ((2 ^ 32 * x.high + x.low : Nat) : Int) - ((2 ^ 32 * y.high + y.low : Nat) : Int)
          = (2 : Int) ^ 32 * ((x.high : Int) - y.high) + ((x.low - y.low : Nat) : Int) := by
        rw [Nat.cast_sub (by omega : y.low ≤ x.low)]
        push_cast
        ring
      rw [hint, split_emod_pow 32 hb _ _ (by omega : x.low - y.low < 2 ^ 32)]
      have hnn : (0 : Int) ≤ ((x.high : Int) - y.high) % ((2 : Int) ^ hb) := by
        have hp : (0 : Int) < (2 : Int) ^ hb := by positivity
        exact Int.emod_nonneg _ hp.ne'
      dsimp only
      omega
    · have hlt : x.low < y.low := Nat.lt_of_not_le hlc
      have hs1 : ((x.low : Int) - y.low) % ((2 : Int) ^ 64)
          = ((2 ^ 64 - (y.low - x.low) : Nat) : Int) := by
        have he : ((x.low : Int) - y.low)
            = ((2 ^ 64 - (y.low - x.low) : Nat) : Int) + (2 : Int) ^ 64 * (-1) := by
          rw [Nat.cast_sub (by omega : y.low - x.low ≤ 2 ^ 64),
            Nat.cast_sub (by omega : x.low ≤ y.low)]
          push_cast
          ring
        rw [he, Int.add_mul_emod_self_left]
        apply Int.emod_eq_of_lt (Int.natCast_nonneg _)
        exact_mod_cast (by omega : (2 ^ 64 - (y.low - x.low) : Nat) < 2 ^ 64)
      simp only [UIntPair.sub]
      rw [hs1, Int.toNat_natCast]
      have hsr : (2 ^ 64 - (y.low - x.low)) >>> 32 = 2 ^ 32 - 1 := by
        rw [Nat.shiftRight_eq_div_pow]
        omega
      rw [hsr]
      have hand : (2 ^ 32 - 1) &&& (2 ^ hb - 1) = 2 ^ hb - 1 := by
        rw [Nat.and_pow_two_sub_one_eq_mod]
        obtain ⟨k, hk⟩ := pow_dvd_pow 2 h32
        have hk1 : 1 ≤ k := by
          rcases Nat.eq_zero_or_pos k with rfl | h
          · rw [Nat.mul_zero] at hk
            omega
          · exact h
        have e1 : 2 ^ hb * (k - 1) = 2 ^ hb * k - 2 ^ hb := Nat.mul_sub_one ..
        have hle : 2 ^ hb ≤ 2 ^ 32 := Nat.pow_le_pow_right (by norm_num) h32
        have he : 2 ^ 32 - 1 = 2 ^ hb * (k - 1) + (2 ^ hb - 1) := by
          rw [e1, ← hk]
          omega
        rw [he, Nat.mul_add_mod, Nat.mod_eq_of_lt (by omega)]
      rw [hand]
      have hhigh : ((x.high : Int) - y.high + ((2 ^ hb - 1 : Nat) : Int)) % ((2 : Int) ^ hb)
          = ((x.high : Int) - y.high - 1) % ((2 : Int) ^ hb) := by
        have he : (x.high : Int) - y.high + ((2 ^ hb - 1 : Nat) : Int)
            = ((x.high : Int) - y.high - 1) + (2 : Int) ^ hb * 1 := by
          rw [Nat.cast_sub (by omega : 1 ≤ 2 ^ hb)]
          push_cast
          ring
        rw [he, Int.add_mul_emod_self_left]
      rw [hhigh, Nat.and_pow_two_sub_one_eq_mod]
      have hlow2 : (2 ^ 64 - (y.low - x.low)) % 2 ^ 32 = 2 ^ 32 - (y.low - x.low) := by omega
      rw [hlow2, UIntPair.ull_eq_add _ (by omega : 2 ^ 32 - (y.low - x.low) < 2 ^ 32)]
      rw [hxu, hyu]
      have hint : ((2 ^ 32 * x.high + x.low : Nat) : Int) - ((2 ^ 32 * y.high + y.low : Nat) : Int)
          = (2 : Int) ^ 32 * ((x.high : Int) - y.high - 1)
            + ((2 ^ 32 - (y.low - x.low) : Nat) : Int) := by
        rw [Nat.cast_sub (by omega : y.low - x.low ≤ 2 ^ 32),
          Nat.cast_sub (by omega : x.low ≤ y.low)]
        push_cast
        ring
      rw [hint, split_emod_pow 32 hb _ _ (by omega : 2 ^ 32 - (y.low - x.low) < 2 ^ 32)]
      have hnn : (0 : Int) ≤ ((x.high : Int) - y.high - 1) % ((2 : Int) ^ hb) := by
        have hp : (0 : Int) < (2 : Int) ^ hb := by positivity
        exact Int.emod_nonneg _ hp.ne'
      dsimp only
      omega
  · -- overflowing 64-bit inputs violate the constructor assertion
    intro a ha hcontra
    unfold UIntPair.ctorAssertOk at hcontra
    rw [Nat.shiftRight_eq_div_pow] at hcontra
    have h1' : 1 ≤ a / 2 ^ (32 + hb) :=
      (Nat.one_le_div_iff (Nat.pos_pow_of_pos _ (by norm_num))).mpr ha
    omega

/-- Witness for C7's amended theorem at the counterexample input. -/
theorem c7_amended_silent_wrap_witness :
    (UIntPair.add (UIntPair.max 8) (UIntPair.ofU64 8 1)).ull =
      ((UIntPair.max 8).ull + (UIntPair.ofU64 8 1).ull) % 2 ^ (32 + 8) :=
  (c7_amended_silent_wrap 8 (UIntPair.max 8) (UIntPair.ofU64 8 1) (by norm_num) (by norm_num)
    ⟨by decide, by decide⟩ ⟨by decide, by decide⟩).1

/-- Witness for C10: both flag states at concrete values. -/
theorem c10_conditional_add_flag_witness :
    flag_type_bitset.conditional_add_flag 32 true 5 = flag_type_bitset.add_flag 32 5 ∧
    flag_type_bitset.conditional_add_flag_pair false (⟨7, 3⟩ : UIntPair 8) = ⟨7, 3⟩ := by
  constructor
  · have h := c10_conditional_add_flag.1 32 true 5 (by norm_num) (by norm_num) (by decide)
    simpa using h
  · have h := c10_conditional_add_flag.2 8 false ⟨7, 3⟩ (by norm_num) (by norm_num) (by decide)
    simpa using h

/-! ### The lexicographic order on sentinel-extended suffixes -/

theorem listLt_asymm : ∀ (x y : List Nat), listLt x y = true → listLt y x = false := by
  intro x
  induction x with
  | nil =>
    intro y h
    cases y with
    | nil => simp [listLt] at h
    | cons b bs => simp [listLt]
  | cons a as ih =>
    intro y h
    cases y with
    | nil => simp [listLt] at h
    | cons b bs =>
      simp only [listLt, Bool.or_eq_true, Bool.and_eq_true, decide_eq_true_eq] at h
      rcases h with hab | ⟨heq, hrec⟩
      · have h1 : decide (b < a) = false := by simp; omega
        have h2 : decide (b = a) = false := by simp; omega
        simp [listLt, h1, h2]
      · subst heq
        simp [listLt, ih bs hrec]

theorem listLt_trans : ∀ (x y z : List Nat),
    listLt x y = true → listLt y z = true → listLt x z = true := by
  intro x
  induction x with
  | nil =>
    intro y z hxy hyz
    cases y with
    | nil => simp [listLt] at hxy
    | cons b bs =>
      cases z with
      | nil => simp [listLt] at hyz
      | cons c cs => simp [listLt]
  | cons a as ih =>
    intro y z hxy hyz
    cases y with
    | nil => simp [listLt] at hxy
    | cons b bs =>
      cases z with
      | nil => simp [listLt] at hyz
      | cons c cs =>
        simp only [listLt, Bool.or_eq_true, Bool.and_eq_true, decide_eq_true_eq] at hxy hyz ⊢
        rcases hxy with h1 | ⟨e1, r1⟩
        · rcases hyz with h2 | ⟨e2, r2⟩
          · exact Or.inl (by omega)
          · exact Or.inl (by omega)
        · rcases hyz with h2 | ⟨e2, r2⟩
          · exact Or.inl (by omega)
          · exact Or.inr ⟨by omega, ih bs cs r1 r2⟩

theorem listLt_antisymm_false : ∀ (x y : List Nat),
    listLt x y = false → listLt y x = false → x = y := by
  intro x
  induction x with
  | nil =>
    intro y h1 _h2
    cases y with
    | nil => rfl
    | cons b bs => simp [listLt] at h1
  | cons a as ih =>
    intro y h1 h2
    cases y with
    | nil => simp [listLt] at h2
    | cons b bs =>
      simp only [listLt, Bool.or_eq_false_iff, Bool.and_eq_false_iff,
        decide_eq_false_iff_not] at h1 h2
      obtain ⟨hnlt1, hor1⟩ := h1
      obtain ⟨hnlt2, hor2⟩ := h2
      have heq : a = b := by omega
      subst heq
      have e1 : listLt as bs = false := by
        rcases hor1 with h | h
        · exact absurd rfl h
        · exact h
      have e2 : listLt bs as = false := by
        rcases hor2 with h | h
        · exact absurd rfl h
        · exact h
      rw [ih bs e1 e2]

theorem extSuffix_length (t : List Nat) (p : Nat) :
    (extSuffix t p).length = (t.length - p) + 1 := by
  simp [extSuffix]

theorem extSuffix_inj (t : List Nat) (i j : Nat) (hi : i < t.length) (hj : j < t.length)
    (h : extSuffix t i = extSuffix t j) : i = j := by
  have hl := congrArg List.length h
  rw [extSuffix_length, extSuffix_length] at hl
  omega

/-- Claim C1: for every text, the modelled `gsaca_for_lce` output is a
permutation of `{0, ..., n-1}`, and every earlier output entry denotes a
suffix strictly lexicographically smaller (under the sentinel-extended
ordering) than every later one. -/
theorem c1_construct_sorted_permutation (t : List Nat) :
    (gsaca_for_lce t).Perm (List.range t.length) ∧
    (gsaca_for_lce t).Pairwise (fun i j => suffixLt t i j = true) := by
  have hperm : (gsaca_for_lce t).Perm (List.range t.length) :=
    List.perm_insertionSort _ _
  refine ⟨hperm, ?_⟩
  have htotal : ∀ a b : Nat, suffixLe t a b = true ∨ suffixLe t b a = true := by
    intro a b
    unfold suffixLe suffixLt
    by_cases h : listLt (extSuffix t b) (extSuffix t a) = true
    · right
      rw [listLt_asymm _ _ h]
      rfl
    · left
      rw [Bool.not_eq_true] at h
      rw [h]
      rfl
  have htrans : ∀ a b c : Nat,
      suffixLe t a b = true → suffixLe t b c = true → suffixLe t a c = true := by
    intro a b c hab hbc
    unfold suffixLe suffixLt at hab hbc ⊢
    rw [Bool.not_eq_true'] at hab hbc ⊢
    by_contra hcon
    rw [Bool.not_eq_false] at hcon
    cases hab2 : listLt (extSuffix t a) (extSuffix t b) with
    | true =>
      have h2 := listLt_trans _ _ _ hcon hab2
      rw [h2] at hbc
      simp at hbc
    | false =>
      have heq : extSuffix t a = extSuffix t b := listLt_antisymm_false _ _ hab2 hab
      rw [← heq, hcon] at hbc
      simp at hbc
  haveI htotI : IsTotal Nat (fun i j => suffixLe t i j = true) := ⟨htotal⟩
  haveI htrI : IsTrans Nat (fun i j => suffixLe t i j = true) := ⟨htrans⟩
  have hsorted : (gsaca_for_lce t).Pairwise (fun i j => suffixLe t i j = true) :=
    List.sorted_insertionSort (fun i j => suffixLe t i j = true) (List.range t.length)
  have hnodup : (gsaca_for_lce t).Nodup := hperm.nodup_iff.mpr (List.nodup_range _)
  have hcomb := hsorted.and hnodup
  refine hcomb.imp_of_mem ?_
  intro a b ha hb hr
  obtain ⟨hle, hne⟩ := hr
  have ha' : a < t.length := List.mem_range.mp (hperm.mem_iff.mp ha)
  have hb' : b < t.length := List.mem_range.mp (hperm.mem_iff.mp hb)
  unfold suffixLe at hle
  rw [Bool.not_eq_true'] at hle
  unfold suffixLt at hle ⊢
  cases hx : listLt (extSuffix t a) (extSuffix t b) with
  | true => rfl
  | false =>
    have heq := listLt_antisymm_false _ _ hx hle
    exact absurd (extSuffix_inj t a b ha' hb' heq) hne

/-- Claim C2: the modelled no-sentinel `gsaca_for_lce` on the byte values of
the text "mississippi" yields exactly the expected suffix array. -/
theorem c2_mississippi :
    gsaca_for_lce [109, 105, 115, 115, 105, 115, 115, 105, 112, 112, 105] =
      [10, 7, 4, 1, 0, 9, 8, 6, 3, 5, 2] := by decide

/-- Claim C5: the construction is total: the empty text yields the empty
output array, every text yields a complete output of the same length, and
the phase-0 pass for the empty text (adjusted length `n = 2`) never touches
the caller's zero-capacity buffer — all its writes go to the two side
slots, for any flag policy, initial side-slot contents and buffer. -/
theorem c5_empty_text_safe :
    gsaca_for_lce [] = [] ∧
    (∀ t : List Nat, (gsaca_for_lce t).length = t.length) ∧
    (∀ (cf : Bool → Nat → Nat) (a0 a1 : Nat) (buf0 : List Nat),
      (sortByPrefixParallel cf 2 [] ⟨(a0, a1), buf0⟩).sa = buf0) := by
  refine ⟨rfl, ?_, ?_⟩
  · intro t
    unfold gsaca_for_lce
    rw [List.length_insertionSort, List.length_range]
  · intro cf a0 a1 buf0
    simp [sortByPrefixParallel, sa_type.set]

/-! ### Claim C3: the phase-0 flag classification -/

/-- Closed form of the phase-0 state for a buffer of the contractual
capacity `n - 2`: side slots `(n - 1, 0)`, caller buffer holding the
flag-tagged sort of the interior positions `1 .. n-2`. -/
theorem sortByPrefixParallel_eq (cf : Bool → Nat → Nat) (n : Nat) (text : List Nat)
    (a0 a1 : Nat) (buf0 : List Nat) (hbuf : buf0.length = n - 2) :
    sortByPrefixParallel cf n text ⟨(a0, a1), buf0⟩ =
      ⟨(n - 1, 0),
        (List.insertionSort (fun a b => phase0_comp n text b a = false)
            (List.range' 1 (n - 2))).map
          (fun idx =>
            if idx ≠ 0 then cf (decide (text_at n text (idx - 1) < text_at n text idx)) idx
            else idx)⟩ := by
  have hlenr : (List.range' 1 (n - 2)).length = n - 2 := List.length_range' 1 1 (n - 2)
  have hdrop : buf0.drop (n - 2) = [] := List.drop_eq_nil_of_le (by omega)
  have hsortlen : (List.insertionSort (fun a b => phase0_comp n text b a = false)
      (List.range' 1 (n - 2))).length = n - 2 := by
    rw [List.length_insertionSort]
    exact hlenr
  have htake : List.take (n - 2) (List.range' 1 (n - 2)) = List.range' 1 (n - 2) :=
    List.take_of_length_le (by omega)
  have hdrop2 : List.drop (n - 2) (List.range' 1 (n - 2)) = [] :=
    List.drop_eq_nil_of_le (by omega)
  have htake2 : List.take (n - 2) (List.insertionSort
      (fun a b => phase0_comp n text b a = false) (List.range' 1 (n - 2))) =
      List.insertionSort (fun a b => phase0_comp n text b a = false)
        (List.range' 1 (n - 2)) :=
    List.take_of_length_le (by omega)
  have hdrop3 : List.drop (n - 2) (List.insertionSort
      (fun a b => phase0_comp n text b a = false) (List.range' 1 (n - 2))) = [] :=
    List.drop_eq_nil_of_le (by omega)
  simp [sortByPrefixParallel, sa_type.set, List.take_left' hlenr, List.drop_left' hlenr,
    htake, hdrop2, htake2, hdrop3, hdrop]

/-- The flag-tagging body applied to a nonzero in-range index value carries
the flag exactly when the preceding view symbol is strictly smaller. -/
theorem c3_core (w n : Nat) (text : List Nat) (val : Nat) (hw : 1 ≤ w)
    (hval1 : 1 ≤ val) (hval2 : val < 2 ^ (w - 1)) :
    (flag_type_bitset.is_flagged w
        (if val ≠ 0 then flag_type_bitset.conditional_add_flag w
            (decide (text_at n text (val - 1) < text_at n text val)) val
          else val) = true ↔
      text_at n text
          (untag w
            (if val ≠ 0 then flag_type_bitset.conditional_add_flag w
                (decide (text_at n text (val - 1) < text_at n text val)) val
              else val) - 1) <
        text_at n text
          (untag w
            (if val ≠ 0 then flag_type_bitset.conditional_add_flag w
                (decide (text_at n text (val - 1) < text_at n text val)) val
              else val))) := by
  rw [if_pos (by omega : val ≠ 0)]
  obtain ⟨_, hflag, hrem⟩ := conditional_add_flag_spec w
    (decide (text_at n text (val - 1) < text_at n text val)) val hw hval2
  rw [hflag, hrem]
  simp

/-- Claim C3: after the phase-0 bucketing step (with the bit-set flag
policy over a `w`-bit index type wide enough for the adjusted length),
every entry of the suffix-array buffer — the two side slots and every
caller-buffer slot — carries the flag bit if and only if the symbol
preceding the suffix the entry denotes compares strictly less than the
suffix's own first symbol, both taken through the sentinel view. -/
theorem c3_phase0_flags (w : Nat) (text : List Nat) (a0 a1 : Nat) (buf0 : List Nat) (i : Nat)
    (hw : 1 ≤ w) (hn : text.length + 2 ≤ 2 ^ (w - 1)) (hbuf : buf0.length = text.length)
    (hi : i < text.length + 2) :
    (flag_type_bitset.is_flagged w
        ((sortByPrefixParallel (flag_type_bitset.conditional_add_flag w) (text.length + 2) text
            ⟨(a0, a1), buf0⟩).get i) = true ↔
      text_at (text.length + 2) text
          (untag w
            ((sortByPrefixParallel (flag_type_bitset.conditional_add_flag w) (text.length + 2)
                text ⟨(a0, a1), buf0⟩).get i) - 1) <
        text_at (text.length + 2) text
          (untag w
            ((sortByPrefixParallel (flag_type_bitset.conditional_add_flag w) (text.length + 2)
                text ⟨(a0, a1), buf0⟩).get i))) := by
  rw [sortByPrefixParallel_eq (flag_type_bitset.conditional_add_flag w) (text.length + 2)
    text a0 a1 buf0 (by omega)]
  rcases (by omega : i = 0 ∨ i = 1 ∨ (1 < i ∧ i - 2 < text.length)) with rfl | rfl | ⟨hgt, hidx⟩
  · -- side slot 0 holds n - 1 = text.length + 1 (the trailing sentinel suffix)
    simp only [sa_type.get]
    norm_num
    rw [untag_eq_mod _ _ hw, Nat.mod_eq_of_lt (by omega)]
    unfold flag_type_bitset.is_flagged
    rw [Nat.testBit_lt_two_pow (by omega)]
    have hta : text_at (text.length + 2) text (text.length + 1) = 0 := by
      unfold text_at
      rw [if_neg]
      omega
    rw [hta]
    simp
  · -- side slot 1 holds 0 (the leading sentinel suffix)
    simp only [sa_type.get]
    norm_num
    rw [untag_eq_mod _ _ hw, Nat.zero_mod]
    unfold flag_type_bitset.is_flagged
    rw [Nat.zero_testBit]
    have hta : text_at (text.length + 2) text 0 = 0 := by
      unfold text_at
      rw [if_neg]
      omega
    rw [Nat.zero_sub, hta]
    simp
  · -- caller-buffer slot: a flag-tagged interior position
    simp only [sa_type.get, if_pos hgt]
    have hlenr : (List.range' 1 (text.length + 2 - 2)).length = text.length + 2 - 2 :=
      List.length_range' 1 1 _
    have hsortlen : (List.insertionSort
        (fun a b => phase0_comp (text.length + 2) text b a = false)
        (List.range' 1 (text.length + 2 - 2))).length = text.length + 2 - 2 := by
      rw [List.length_insertionSort]
      exact hlenr
    have hidx2 : i - 2 < (List.insertionSort
        (fun a b => phase0_comp (text.length + 2) text b a = false)
        (List.range' 1 (text.length + 2 - 2))).length := by omega
    have hidx3 : i - 2 < ((List.insertionSort
        (fun a b => phase0_comp (text.length + 2) text b a = false)
        (List.range' 1 (text.length + 2 - 2))).map
          (fun idx =>
            if idx ≠ 0 then flag_type_bitset.conditional_add_flag w
                (decide (text_at (text.length + 2) text (idx - 1) <
                  text_at (text.length + 2) text idx)) idx
            else idx)).length := by
      rw [List.length_map]
      exact hidx2
    rw [List.getD_eq_getElem?_getD, List.getElem?_eq_getElem hidx3]
    simp only [Option.getD_some, List.getElem_map]
    have hmem : (List.insertionSort
        (fun a b => phase0_comp (text.length + 2) text b a = false)
        (List.range' 1 (text.length + 2 - 2)))[i - 2] ∈
          List.range' 1 (text.length + 2 - 2) :=
      (List.perm_insertionSort _ _).mem_iff.mp (List.getElem_mem hidx2)
    obtain ⟨k, hk, hvk⟩ := List.mem_range'.mp hmem
    exact c3_core w (text.length + 2) text _ hw (by omega) (by omega)

/-- Witness for C3 at a concrete instantiation: 32-bit indices, stored text
`[1, 2]`, caller-buffer slot 2. -/
theorem c3_phase0_flags_witness :
    flag_type_bitset.is_flagged 32
        ((sortByPrefixParallel (flag_type_bitset.conditional_add_flag 32)
            (([1, 2] : List Nat).length + 2) [1, 2] ⟨(0, 0), [0, 0]⟩).get 2) = true ↔
      text_at (([1, 2] : List Nat).length + 2) [1, 2]
          (untag 32
            ((sortByPrefixParallel (flag_type_bitset.conditional_add_flag 32)
                (([1, 2] : List Nat).length + 2) [1, 2] ⟨(0, 0), [0, 0]⟩).get 2) - 1) <
        text_at (([1, 2] : List Nat).length + 2) [1, 2]
          (untag 32
            ((sortByPrefixParallel (flag_type_bitset.conditional_add_flag 32)
                (([1, 2] : List Nat).length + 2) [1, 2] ⟨(0, 0), [0, 0]⟩).get 2)) :=
  c3_phase0_flags 32 [1, 2] 0 0 [0, 0] 2 (by decide) (by decide) (by decide) (by decide)

end GsacaLyndon
